import Mathlib

/-!
# hlink: a verification development

Shallow embedding of `hlink.c`:

* the reconciliation loop of `main` (lines 173 to 216), run over a model of the
  filesystem that maps resolved path names to inode numbers;
* `mem2pathlist` (lines 324 to 355);
* `recursedir` (lines 239 to 322), run over a model of a directory tree.

C strings are lists of characters (the bytes before the terminating NUL).
-/

set_option autoImplicit false

namespace Hlink

/-- A C string: the characters before the terminating NUL. -/
abbrev CStr := List Char

/-! ## Filesystem model -/

/-- The directory entries of the filesystem: resolved path name to inode number. -/
abbrev FS := CStr → Option Nat

/-- Path resolution relative to the working directory `cwd`: a name starting with
`/` is absolute, any other name is looked up under `cwd`. -/
def resolve (cwd p : CStr) : CStr :=
  if p.head? = some '/' then p else cwd ++ '/' :: p

/-- The call `stat(p, &sb)`: the inode number of the entry, `none` when the call
returns -1. -/
def stat (fs : FS) (cwd p : CStr) : Option Nat :=
  fs (resolve cwd p)

/-- The call `unlink(p)`: removes the entry; `none` when the call returns -1 (no
such entry), the filesystem being left as it was. -/
def unlink (fs : FS) (cwd p : CStr) : Option FS :=
  match fs (resolve cwd p) with
  | none => none
  | some _ => some (fun q => if q = resolve cwd p then none else fs q)

/-- The call `link(old, new)`: makes `new` a name of the file `old` names; `none`
when the call returns -1 (`old` has no entry, or `new` already has one). -/
def link (fs : FS) (cwd old new : CStr) : Option FS :=
  match fs (resolve cwd old) with
  | none => none
  | some ino =>
    match fs (resolve cwd new) with
    | some _ => none
    | none => some (fun q => if q = resolve cwd new then some ino else fs q)

/-- The function `basename` of `libgen.h`: `"."` for the empty string, `"/"` for a
string of slashes only, otherwise the last component, trailing slashes removed. -/
def basename (path : CStr) : CStr :=
  if path = [] then ['.']
  else
    let stripped := path.reverse.dropWhile (fun c => c == '/')
    if stripped = [] then ['/']
    else (stripped.takeWhile (fun c => c != '/')).reverse

/-! ## The reconciliation loop of `main` -/

/-- What one iteration of the loop does that can be observed. -/
inductive Event where
  /-- The two lines written to stderr at lines 190 and 191. -/
  | mismatch (fnfrom fnto : CStr)
  /-- A call of `stat` on `path` and what it found. -/
  | statCall (path : CStr) (res : Option Nat)
  /-- A call of `perror` with this argument. -/
  | perror (arg : CStr)
  /-- The line written to stdout at line 204. -/
  | report (fnfrom : CStr) (inofrom inoto : Nat)
  /-- A call of `unlink` on `path` and whether it succeeded. -/
  | unlinkCall (path : CStr) (ok : Bool)
  /-- A call of `sync`. -/
  | sync
  /-- A call of `link(old, new)` and whether it succeeded. -/
  | linkCall (old new : CStr) (ok : Bool)
  /-- The message written to stderr at lines 181 and 182. -/
  | shorter (path : CStr)
  deriving DecidableEq, Repr

/-- The state the loop runs on: the filesystem, the field `sb.st_ino` of the one
`struct stat sb` of `main`, and the events so far (oldest first). -/
structure RunState where
  fs : FS
  sb : Nat
  trace : List Event

/-- Appends events to the trace. -/
def RunState.emit (st : RunState) (es : List Event) : RunState :=
  { st with trace := st.trace ++ es }

/-- Lines 194 to 197 (and 199 to 202): `stat(path, &sb)`, with `perror` when it
returns -1. A call that fails leaves `sb` as it was. -/
def statInto (cwd path : CStr) (st : RunState) : RunState :=
  match stat st.fs cwd path with
  | some ino => { st with sb := ino, trace := st.trace ++ [Event.statCall path (some ino)] }
  | none => st.emit [Event.statCall path none, Event.perror path]

/-- Lines 205 to 214: the action taken on the two inode numbers. The calls are made
on the base names `fnfrom` and `fnto`. -/
def relink (cwd fnfrom fnto : CStr) (inofrom inoto : Nat) (st : RunState) : RunState :=
  if inofrom != inoto then
    match unlink st.fs cwd fnto with
    | none => st.emit [Event.unlinkCall fnto false, Event.perror fnto]
    | some fs1 =>
      match link fs1 cwd fnfrom fnto with
      | none =>
        { st with fs := fs1,
                  trace := st.trace ++ [Event.unlinkCall fnto true, Event.sync,
                    Event.linkCall fnfrom fnto false, Event.perror fnto] }
      | some fs2 =>
        { st with fs := fs2,
                  trace := st.trace ++ [Event.unlinkCall fnto true, Event.sync,
                    Event.linkCall fnfrom fnto true] }
  else st

/-- The assignment `x = v` to a local variable whose content was `old` (`none` when
nothing had been stored in it). -/
def assign (_old : Option Nat) (v : Nat) : Nat := v

/-- Lines 186 to 204: the base names, the mismatch warning, the two inode lookups
and the report line. The result is the state and the locals `inofrom`, `inoto`. -/
def lookup (cwd pfrom pto : CStr) (st : RunState) : RunState × Nat × Nat :=
  let fnfrom := basename pfrom
  let fnto := basename pto
  let st := if fnfrom != fnto then st.emit [Event.mismatch fnfrom fnto] else st
  -- Now the action
  let inofrom : Option Nat := if (stat st.fs cwd pfrom).isNone then some 0 else none -- line 196
  let st := statInto cwd pfrom st
  let inofrom := assign inofrom st.sb                                              -- line 198
  let inoto : Option Nat := if (stat st.fs cwd pto).isNone then some 0 else none     -- line 201
  let st := statInto cwd pto st
  let inoto := assign inoto st.sb                                                  -- line 203
  (st.emit [Event.report fnfrom inofrom inoto], inofrom, inoto)

/-- Lines 186 to 214: the body of the loop for the pair `plfrom[index]`,
`plto[index]`, once `plto[index]` is known not to be NULL. -/
def loopBody (cwd pfrom pto : CStr) (st : RunState) : RunState :=
  let r := lookup cwd pfrom pto st
  relink cwd (basename pfrom) (basename pto) r.2.1 r.2.2 r.1

/-- Lines 173 to 218: the loop over the two NULL-terminated lists, `plfrom[index]`
and `plto[index]` being the heads of what is left of them. The result is the final
state and the exit status: 0 for `return 0`, 1 for `exit(EXIT_FAILURE)`. -/
def reconcile (cwd : CStr) : List CStr → List CStr → RunState → RunState × Nat
  | [], _, st => (st, 0)
  | pfrom :: _, [], st => (st.emit [Event.shorter pfrom], 1)
  | pfrom :: plfrom, pto :: plto, st => reconcile cwd plfrom plto (loopBody cwd pfrom pto st)

/-- Whether an event is a call of `unlink`, `sync` or `link`. -/
def Event.isAction : Event → Bool
  | Event.unlinkCall _ _ => true
  | Event.sync => true
  | Event.linkCall _ _ _ => true
  | _ => false

/-- The calls of `unlink`, `sync` and `link` among the events. -/
def actions (es : List Event) : List Event :=
  es.filter Event.isAction

/-- A run from the filesystem `fs`, with `sb0` in `sb.st_ino` (left there by the
`stat` of `dirto` at line 102) and no event yet. -/
def run (cwd : CStr) (plfrom plto : List CStr) (fs : FS) (sb0 : Nat) : RunState × Nat :=
  reconcile cwd plfrom plto { fs := fs, sb := sb0, trace := [] }

/-- Example filesystem: two files under `/x` and `/y`, two under the working
directory `/w`. -/
def fsEx : FS := fun q =>
  if q = "/x/1.txt".toList then some 10
  else if q = "/y/2.txt".toList then some 20
  else if q = "/w/1.txt".toList then some 30
  else if q = "/w/2.txt".toList then some 40
  else none

/-- The events of one inode lookup (lines 194 to 197): the call, and `perror` when
it failed. -/
def statEvents (fs : FS) (cwd p : CStr) : List Event :=
  match stat fs cwd p with
  | some ino => [Event.statCall p (some ino)]
  | none => [Event.statCall p none, Event.perror p]

/-- The mismatch warning, when the two base names differ. -/
def warning (pfrom pto : CStr) : List Event :=
  if basename pfrom != basename pto then [Event.mismatch (basename pfrom) (basename pto)] else []

/-- Example filesystem: the file of inode 10 has the two names `/x/1.txt` and
`/y/1.txt`; the working directory `/w` holds another `1.txt`. -/
def fsLinked : FS := fun q =>
  if q = "/x/1.txt".toList then some 10
  else if q = "/y/1.txt".toList then some 10
  else if q = "/w/1.txt".toList then some 30
  else none

/-- The inode number line 198 leaves in `inofrom`: what `stat` found, or what was in
`sb.st_ino` before when the call failed. -/
def inoFrom (fs : FS) (sb : Nat) (cwd pfrom : CStr) : Nat :=
  (stat fs cwd pfrom).getD sb

/-- The inode number line 203 leaves in `inoto`. -/
def inoTo (fs : FS) (sb : Nat) (cwd pfrom pto : CStr) : Nat :=
  (stat fs cwd pto).getD (inoFrom fs sb cwd pfrom)

/-- The events of lines 186 to 204: the warning if any, the two lookups, the
report line. -/
def lookupEvents (fs : FS) (sb : Nat) (cwd pfrom pto : CStr) : List Event :=
  warning pfrom pto ++ statEvents fs cwd pfrom ++ statEvents fs cwd pto ++
    [Event.report (basename pfrom) (inoFrom fs sb cwd pfrom) (inoTo fs sb cwd pfrom pto)]

/-- The NUL byte. -/
def NUL : Char := Char.ofNat 0

/-- What stops `mem2pathlist` short of returning: a `strlen` that finds no NUL
before the end `to` of the block, a slot index that is not below the number of
slots allocated, or a loop the model cut off. -/
inductive Fault where
  | overrun
  | outOfBounds
  | fuel
  deriving DecidableEq, Repr

/-- A result, or the fault that prevented it. -/
inductive Outcome (α : Type) where
  | ok (a : α)
  | fault (f : Fault)
  deriving DecidableEq, Repr

/-- Lines 334 to 341: every newline of the block becomes a NUL and is counted.
The result is the count and the block as the loop leaves it. -/
def firstPass (count : Nat) : List Char → Nat × List Char
  | [] => (count, [])
  | c :: cp =>
    if c = '\n' then
      let r := firstPass (count + 1) cp
      (r.1, NUL :: r.2)
    else
      let r := firstPass count cp
      (r.1, c :: r.2)

/-- The call `strlen(cp)`, `cp` pointing at what is left of the block: the number
of bytes before the first NUL, `none` when there is no NUL before `to`. -/
def strlen : List Char → Option Nat
  | [] => none
  | c :: cs => if c = NUL then some 0 else (strlen cs).map (fun n => n + 1)

/-- The store `plist[i] = v` into the allocated slots. -/
def setSlot (plist : List (Option CStr)) (i : Nat) (v : Option CStr) :
    Outcome (List (Option CStr)) :=
  if i < plist.length then Outcome.ok (plist.set i v) else Outcome.fault Fault.outOfBounds

/-- Lines 348 to 352: the second loop, `cp` being what is left of the block. Each
turn consumes at least one byte, so a `fuel` of the length of the block is enough.
The result is the final `i` and the slots. -/
def secondPass : Nat → List Char → Nat → List (Option CStr) →
    Outcome (Nat × List (Option CStr))
  | _, [], i, plist => Outcome.ok (i, plist)
  | 0, _ :: _, _, _ => Outcome.fault Fault.fuel
  | fuel + 1, c :: cs, i, plist =>
    match strlen (c :: cs) with
    | none => Outcome.fault Fault.overrun
    | some n =>
      match (if n ≠ 0 then setSlot plist i (some ((c :: cs).take n)) else Outcome.ok plist) with
      | Outcome.fault f => Outcome.fault f
      | Outcome.ok plist1 => secondPass fuel ((c :: cs).drop (n + 1)) (i + 1) plist1

/-- The function `mem2pathlist(from, to)` on the block of bytes from `from` up to
`to`: the slots of the array it returns, `none` being NULL. -/
def mem2pathlist (block : List Char) : Outcome (List (Option CStr)) :=
  let r := firstPass 0 block
  let count := r.1 + 1
  let plist : List (Option CStr) := List.replicate count none
  match secondPass r.2.length r.2 0 plist with
  | Outcome.fault f => Outcome.fault f
  | Outcome.ok (i, plist1) => setSlot plist1 i none

/-- What a loop of the form `while (plist[index])` reads of the array: the entries
before the first NULL. -/
def entries : List (Option CStr) → List CStr
  | some s :: rest => s :: entries rest
  | _ => []

/-- The list the reconciliation loop reads from the result of `mem2pathlist`. -/
def pathList (block : List Char) : Outcome (List CStr) :=
  match mem2pathlist block with
  | Outcome.fault f => Outcome.fault f
  | Outcome.ok plist => Outcome.ok (entries plist)

/-! ## `recursedir` -/

/-- The values of `d_type` the `switch` of `recursedir` has a case for. -/
inductive DType where
  | DT_BLK
  | DT_CHR
  | DT_FIFO
  | DT_SOCK
  | DT_LNK
  | DT_REG
  | DT_DIR
  | DT_UNKNOWN
  deriving DecidableEq, Repr

/-- A directory entry as `readdir` returns it, in a model of the tree: its name,
its type, whether `stat` of its path succeeds, and, for a directory, the entries
`readdir` returns for it, in the order it returns them. -/
inductive Dirent where
  | mk (d_name : CStr) (d_type : DType) (statOk : Bool) (sub : List Dirent)

/-- The field `d_name`. -/
def Dirent.d_name : Dirent → CStr
  | Dirent.mk n _ _ _ => n

/-- The field `d_type`. -/
def Dirent.d_type : Dirent → DType
  | Dirent.mk _ t _ _ => t

/-- Whether `stat` of the entry succeeds. -/
def Dirent.statOk : Dirent → Bool
  | Dirent.mk _ _ ok _ => ok

/-- The entries of the directory, when the entry is one. -/
def Dirent.sub : Dirent → List Dirent
  | Dirent.mk _ _ _ sub => sub

/-- What `recursedir` does that can be observed. -/
inductive DirEvent where
  /-- The line written to `fpo` at line 304. -/
  | written (path : CStr)
  /-- A call of `perror` after a failed `stat` (lines 271 and 282). -/
  | perror (path : CStr)
  /-- The message written to stderr at lines 316 and 317. -/
  | unknownType (headdir d_name : CStr)
  deriving DecidableEq, Repr

/-- Whether `needle` is at the start of `hay`. -/
def startsWith : CStr → CStr → Bool
  | _, [] => true
  | [], _ :: _ => false
  | h :: hay, n :: needle => h == n && startsWith hay needle

/-- Whether `strstr(hay, needle)` is not NULL. -/
def strstr : CStr → CStr → Bool
  | [], needle => startsWith [] needle
  | h :: hay, needle => startsWith (h :: hay) needle || strstr hay needle

/-- Lines 292 to 298: whether the loop over `vlist` leaves `want` at 0. -/
def excluded (newpath : CStr) : List CStr → Bool
  | [] => false
  | v :: vlist => if strstr newpath v then true else excluded newpath vlist

/-- Lines 287 to 306, the code at `REG_LNK_common`; `vlist` is `none` for NULL. -/
def regLnkCommon (newpath : CStr) (vlist : Option (List CStr)) : List DirEvent :=
  let want :=
    match vlist with
    | none => true
    | some vl => !excluded newpath vl
  if want then [DirEvent.written newpath] else []

mutual
/-- Lines 252 to 319: the body of the loop of `recursedir` for one entry. -/
def visit (vlist : Option (List CStr)) : Dirent → CStr → List DirEvent
  | Dirent.mk d_name d_type statOk sub, headdir =>
    if d_name = ['.', '.'] then []
    else if d_name = ['.'] then []
    else
      match d_type with
      | DType.DT_BLK => []
      | DType.DT_CHR => []
      | DType.DT_FIFO => []
      | DType.DT_SOCK => []
      | DType.DT_LNK =>
        if statOk then regLnkCommon (headdir ++ '/' :: d_name) vlist
        else [DirEvent.perror (headdir ++ '/' :: d_name)]
      | DType.DT_REG =>
        if statOk then regLnkCommon (headdir ++ '/' :: d_name) vlist
        else [DirEvent.perror (headdir ++ '/' :: d_name)]
      | DType.DT_DIR => recursedirOn vlist sub (headdir ++ '/' :: d_name)
      | DType.DT_UNKNOWN => [DirEvent.unknownType headdir d_name]
termination_by structural e => e
/-- Lines 251 to 320: the loop of `recursedir` over the entries `readdir` returns
for `headdir`. -/
def recursedirOn (vlist : Option (List CStr)) : List Dirent → CStr → List DirEvent
  | [], _ => []
  | de :: rest, headdir => visit vlist de headdir ++ recursedirOn vlist rest headdir
termination_by structural l => l
end

/-- The function `recursedir(headdir, fpo, vlist)`, `entries` being what `readdir`
returns for `headdir`: the events, in order. The directories of the model open. -/
def recursedir (headdir : CStr) (entries : List Dirent) (vlist : Option (List CStr)) :
    List DirEvent :=
  recursedirOn vlist entries headdir

/-- The lines written to `fpo`, in order. -/
def writtenPaths : List DirEvent → List CStr
  | [] => []
  | DirEvent.written p :: es => p :: writtenPaths es
  | _ :: es => writtenPaths es

/-- Whether an entry is one of the two `readdir` returns for the directory itself
and its parent. -/
def Dirent.isDot (e : Dirent) : Bool :=
  e.d_name = ['.', '.'] || e.d_name = ['.']

/-- That `needle` is a substring of `hay`. -/
def Contains (hay needle : CStr) : Prop :=
  ∃ s t, hay = s ++ needle ++ t

/-- The entries under `root` that are reached through directories, each with its
full path and its type: `Reach root entries p t`. -/
inductive Reach : CStr → List Dirent → CStr → DType → Prop where
  | here (root : CStr) (entries : List Dirent) (e : Dirent) :
      e ∈ entries → e.isDot = false →
      Reach root entries (root ++ '/' :: e.d_name) e.d_type
  | deeper (root : CStr) (entries : List Dirent) (e : Dirent) (p : CStr) (t : DType) :
      e ∈ entries → e.isDot = false → e.d_type = DType.DT_DIR →
      Reach (root ++ '/' :: e.d_name) e.sub p t → Reach root entries p t

mutual
/-- The reachable entries below one entry, itself included, with path and type. -/
def walkEntry : Dirent → CStr → List (CStr × DType)
  | Dirent.mk d_name d_type _ sub, root =>
    if d_name = ['.', '.'] || d_name = ['.'] then []
    else (root ++ '/' :: d_name, d_type) ::
      (if d_type = DType.DT_DIR then walk sub (root ++ '/' :: d_name) else [])
termination_by structural e => e
/-- The reachable entries of a directory, with path and type. -/
def walk : List Dirent → CStr → List (CStr × DType)
  | [], _ => []
  | e :: rest, root => walkEntry e root ++ walk rest root
termination_by structural l => l
end

mutual
/-- A directory tree as a filesystem can hold it and on which every `stat`
succeeds: no name has a slash, and the names in a directory are distinct. -/
def wellFormedEntry : Dirent → Bool
  | Dirent.mk d_name _ statOk sub =>
    statOk && !d_name.contains '/' && wellFormed sub
termination_by structural e => e
/-- See `wellFormedEntry`. -/
def wellFormed : List Dirent → Bool
  | [] => true
  | e :: rest =>
    wellFormedEntry e && rest.all (fun e1 => e1.d_name != e.d_name) && wellFormed rest
termination_by structural l => l
end

/-- Two models of one tree that differ in the order in which `readdir` returns the
entries of the directories. -/
inductive Shuffled : List Dirent → List Dirent → Prop where
  | refl (l : List Dirent) : Shuffled l l
  | cons (n : CStr) (t : DType) (ok : Bool) (sub sub1 l l1 : List Dirent) :
      Shuffled sub sub1 → Shuffled l l1 →
      Shuffled (Dirent.mk n t ok sub :: l) (Dirent.mk n t ok sub1 :: l1)
  | swap (a b : Dirent) (l : List Dirent) : Shuffled (a :: b :: l) (b :: a :: l)
  | trans (l1 l2 l3 : List Dirent) : Shuffled l1 l2 → Shuffled l2 l3 → Shuffled l1 l3

/-- Example tree: a regular file `f`, a directory `d` holding a regular file `g`,
and a FIFO `p`, besides the entries `.` and `..`. -/
def treeEx : List Dirent :=
  [Dirent.mk ".".toList DType.DT_DIR true [],
   Dirent.mk "..".toList DType.DT_DIR true [],
   Dirent.mk "f".toList DType.DT_REG true [],
   Dirent.mk "d".toList DType.DT_DIR true
     [Dirent.mk ".".toList DType.DT_DIR true [],
      Dirent.mk "..".toList DType.DT_DIR true [],
      Dirent.mk "g".toList DType.DT_REG true []],
   Dirent.mk "p".toList DType.DT_FIFO true []]

/-- Whether an entry of path `x.1` and type `x.2` is to be written: a regular file
or a symlink whose path has none of the strings of `vlist` as a substring. -/
def keep (vlist : Option (List CStr)) (x : CStr × DType) : Bool :=
  (x.2 = DType.DT_REG || x.2 = DType.DT_LNK) &&
    match vlist with
    | none => true
    | some vl => !excluded x.1 vl

/-- The block of text made of the lines `ls`, each followed by a newline. -/
def textOf (ls : List CStr) : List Char :=
  ls.flatMap (fun l => l ++ ['\n'])

/-- The slot `mem2pathlist` leaves for a line: NULL for an empty line. -/
def slotOf (l : CStr) : Option CStr :=
  if l = [] then none else some l

/-- Example filesystem: `/x/1.txt` and `/y/1.txt` are two files (inodes 10 and 20);
the working directory `/w` holds another `1.txt`. -/
def fsApart : FS := fun q =>
  if q = "/x/1.txt".toList then some 10
  else if q = "/y/1.txt".toList then some 20
  else if q = "/w/1.txt".toList then some 30
  else none

/-! # Theorems -/

/-! ## The reconciliation loop -/

theorem lookup_eq (cwd pfrom pto : CStr) (st : RunState) :
    lookup cwd pfrom pto st =
      ({ fs := st.fs,
         sb := inoTo st.fs st.sb cwd pfrom pto,
         trace := st.trace ++ lookupEvents st.fs st.sb cwd pfrom pto },
       inoFrom st.fs st.sb cwd pfrom,
       inoTo st.fs st.sb cwd pfrom pto) := by
  unfold lookup lookupEvents inoTo inoFrom warning statEvents statInto assign RunState.emit
  by_cases hb : (basename pfrom != basename pto) = true
  · cases h1 : stat st.fs cwd pfrom <;> cases h2 : stat st.fs cwd pto <;> simp [hb, h1, h2]
  · cases h1 : stat st.fs cwd pfrom <;> cases h2 : stat st.fs cwd pto <;> simp [hb, h1, h2]

theorem loopBody_eq (cwd pfrom pto : CStr) (st : RunState) :
    loopBody cwd pfrom pto st =
      relink cwd (basename pfrom) (basename pto)
        (inoFrom st.fs st.sb cwd pfrom) (inoTo st.fs st.sb cwd pfrom pto)
        { fs := st.fs,
          sb := inoTo st.fs st.sb cwd pfrom pto,
          trace := st.trace ++ lookupEvents st.fs st.sb cwd pfrom pto } := by
  unfold loopBody
  rw [lookup_eq]

theorem actions_warning (pfrom pto : CStr) : actions (warning pfrom pto) = [] := by
  unfold warning actions
  split <;> simp [Event.isAction]

theorem actions_statEvents (fs : FS) (cwd p : CStr) : actions (statEvents fs cwd p) = [] := by
  unfold statEvents actions
  cases stat fs cwd p <;> simp [Event.isAction]

theorem actions_append (es fs : List Event) : actions (es ++ fs) = actions es ++ actions fs := by
  simp [actions]

/-- One iteration on a pair whose two lookups succeed with the same inode number. -/
theorem loopBody_of_same_inode (cwd pfrom pto : CStr) (st : RunState) (ino : Nat)
    (hfrom : stat st.fs cwd pfrom = some ino) (hto : stat st.fs cwd pto = some ino) :
    loopBody cwd pfrom pto st =
      { fs := st.fs, sb := ino,
        trace := st.trace ++ warning pfrom pto ++
          [Event.statCall pfrom (some ino), Event.statCall pto (some ino),
           Event.report (basename pfrom) ino ino] } := by
  rw [loopBody_eq]
  simp [relink, lookupEvents, inoFrom, inoTo, statEvents, hfrom, hto]

/-- C2: when both `stat` calls of a pair succeed with one and the same inode
number, the iteration calls neither `unlink` nor `sync` nor `link`: it adds the
warning (if any), the two lookups and the report line to the trace and leaves the
filesystem as it was; the loop goes on with the next index. -/
theorem shared_inode_pair_untouched (cwd pfrom pto : CStr) (st : RunState) (ino : Nat)
    (hfrom : stat st.fs cwd pfrom = some ino) (hto : stat st.fs cwd pto = some ino) :
    loopBody cwd pfrom pto st =
        { fs := st.fs, sb := ino,
          trace := st.trace ++ warning pfrom pto ++
            [Event.statCall pfrom (some ino), Event.statCall pto (some ino),
             Event.report (basename pfrom) ino ino] } ∧
      (loopBody cwd pfrom pto st).fs = st.fs ∧
      actions (loopBody cwd pfrom pto st).trace = actions st.trace ∧
      ∀ l1 l2, reconcile cwd (pfrom :: l1) (pto :: l2) st =
        reconcile cwd l1 l2 (loopBody cwd pfrom pto st) := by
  have h := loopBody_of_same_inode cwd pfrom pto st ino hfrom hto
  refine ⟨h, ?_, ?_, ?_⟩
  · rw [h]
  · rw [h]
    simp only [actions_append, actions_warning]
    simp [actions, Event.isAction]
  · intro l1 l2
    rfl

theorem shared_inode_pair_untouched_witness :
    loopBody "/w".toList "/x/1.txt".toList "/y/1.txt".toList
        { fs := fsLinked, sb := 7, trace := [] } =
        { fs := fsLinked, sb := 10,
          trace := [] ++ warning "/x/1.txt".toList "/y/1.txt".toList ++
            [Event.statCall "/x/1.txt".toList (some 10),
             Event.statCall "/y/1.txt".toList (some 10),
             Event.report (basename "/x/1.txt".toList) 10 10] } ∧
      (loopBody "/w".toList "/x/1.txt".toList "/y/1.txt".toList
        { fs := fsLinked, sb := 7, trace := [] }).fs = fsLinked ∧
      actions (loopBody "/w".toList "/x/1.txt".toList "/y/1.txt".toList
        { fs := fsLinked, sb := 7, trace := [] }).trace = actions [] ∧
      ∀ l1 l2, reconcile "/w".toList ("/x/1.txt".toList :: l1) ("/y/1.txt".toList :: l2)
          { fs := fsLinked, sb := 7, trace := [] } =
        reconcile "/w".toList l1 l2 (loopBody "/w".toList "/x/1.txt".toList "/y/1.txt".toList
          { fs := fsLinked, sb := 7, trace := [] }) :=
  shared_inode_pair_untouched "/w".toList "/x/1.txt".toList "/y/1.txt".toList
    { fs := fsLinked, sb := 7, trace := [] } 10 (by decide) (by decide)

theorem mem_actions (e : Event) (es : List Event) :
    e ∈ actions es ↔ e ∈ es ∧ e.isAction = true := by
  simp [actions]

theorem not_mem_of_actions_nil (e : Event) (es : List Event) (h : actions es = [])
    (ha : e.isAction = true) : e ∉ es := by
  intro hmem
  have : e ∈ actions es := (mem_actions e es).2 ⟨hmem, ha⟩
  rw [h] at this
  exact List.not_mem_nil _ this

/-- The four ways lines 205 to 214 can go. -/
theorem relink_cases (cwd fnfrom fnto : CStr) (i1 i2 : Nat) (st : RunState) :
    (i1 = i2 ∧ relink cwd fnfrom fnto i1 i2 st = st) ∨
    (i1 ≠ i2 ∧ unlink st.fs cwd fnto = none ∧
      relink cwd fnfrom fnto i1 i2 st =
        { st with trace := st.trace ++ [Event.unlinkCall fnto false, Event.perror fnto] }) ∨
    (i1 ≠ i2 ∧ ∃ fs1, unlink st.fs cwd fnto = some fs1 ∧ link fs1 cwd fnfrom fnto = none ∧
      relink cwd fnfrom fnto i1 i2 st =
        { st with fs := fs1,
                  trace := st.trace ++ [Event.unlinkCall fnto true, Event.sync,
                    Event.linkCall fnfrom fnto false, Event.perror fnto] }) ∨
    (i1 ≠ i2 ∧ ∃ fs1 fs2, unlink st.fs cwd fnto = some fs1 ∧
      link fs1 cwd fnfrom fnto = some fs2 ∧
      relink cwd fnfrom fnto i1 i2 st =
        { st with fs := fs2,
                  trace := st.trace ++ [Event.unlinkCall fnto true, Event.sync,
                    Event.linkCall fnfrom fnto true] }) := by
  unfold relink RunState.emit
  by_cases h : i1 = i2
  · left
    simp [h]
  · right
    have hb : (i1 != i2) = true := by simpa using h
    simp only [hb, if_true]
    cases hu : unlink st.fs cwd fnto with
    | none => left; exact ⟨h, rfl, rfl⟩
    | some fs1 =>
      right
      simp only []
      cases hl : link fs1 cwd fnfrom fnto with
      | none => left; exact ⟨h, fs1, rfl, hl, rfl⟩
      | some fs2 => right; exact ⟨h, fs1, fs2, rfl, hl, rfl⟩

theorem actions_lookupEvents (fs : FS) (sb : Nat) (cwd pfrom pto : CStr) :
    actions (lookupEvents fs sb cwd pfrom pto) = [] := by
  unfold lookupEvents
  simp only [actions_append, actions_warning, actions_statEvents]
  simp [actions, Event.isAction]

/-- C8: for a pair whose two inode numbers (the locals `inofrom` and `inoto` after
lines 194 to 203) differ, when `unlink` of the destination name fails the iteration
adds only the failed call and its `perror` to what the lookups left: no `sync`, no
`link`, the filesystem as it was, and the loop goes on with the next index. And in
every iteration whatever, a call of `link` comes right after a successful `unlink`
of the destination name and the `sync`. -/
theorem unlink_failure_skips_link (cwd pfrom pto : CStr) (st : RunState)
    (hne : (lookup cwd pfrom pto st).2.1 ≠ (lookup cwd pfrom pto st).2.2)
    (hfail : unlink st.fs cwd (basename pto) = none) :
    loopBody cwd pfrom pto st =
        (lookup cwd pfrom pto st).1.emit
          [Event.unlinkCall (basename pto) false, Event.perror (basename pto)] ∧
      actions (loopBody cwd pfrom pto st).trace =
        actions st.trace ++ [Event.unlinkCall (basename pto) false] ∧
      (loopBody cwd pfrom pto st).fs = st.fs ∧
      (∀ l1 l2, reconcile cwd (pfrom :: l1) (pto :: l2) st =
        reconcile cwd l1 l2 (loopBody cwd pfrom pto st)) ∧
      ∀ (qfrom qto : CStr) (st1 : RunState) (old new : CStr) (ok : Bool),
        Event.linkCall old new ok ∈ (loopBody cwd qfrom qto { st1 with trace := [] }).trace →
        ∃ before after, (loopBody cwd qfrom qto { st1 with trace := [] }).trace =
          before ++ Event.unlinkCall (basename qto) true :: Event.sync ::
            Event.linkCall old new ok :: after := by
  have hne2 : (inoFrom st.fs st.sb cwd pfrom != inoTo st.fs st.sb cwd pfrom pto) = true := by
    rw [lookup_eq] at hne
    simpa using hne
  have hbody : loopBody cwd pfrom pto st =
      (lookup cwd pfrom pto st).1.emit
        [Event.unlinkCall (basename pto) false, Event.perror (basename pto)] := by
    unfold loopBody relink
    rw [lookup_eq]
    simp only [hne2, if_true, hfail]
  refine ⟨hbody, ?_, ?_, fun _ _ => rfl, ?_⟩
  · rw [hbody, lookup_eq]
    simp only [RunState.emit, actions_append, actions_lookupEvents]
    simp [actions, Event.isAction]
  · rw [hbody, lookup_eq]
    rfl
  · intro qfrom qto st1 old new ok hmem
    rw [loopBody_eq] at hmem ⊢
    have hno : Event.linkCall old new ok ∉ lookupEvents st1.fs st1.sb cwd qfrom qto :=
      not_mem_of_actions_nil _ _ (actions_lookupEvents _ _ _ _ _) rfl
    rcases relink_cases cwd (basename qfrom) (basename qto)
        (inoFrom st1.fs st1.sb cwd qfrom) (inoTo st1.fs st1.sb cwd qfrom qto)
        { fs := st1.fs, sb := inoTo st1.fs st1.sb cwd qfrom qto,
          trace := ([] : List Event) ++ lookupEvents st1.fs st1.sb cwd qfrom qto }
      with ⟨_, h⟩ | ⟨_, _, h⟩ | ⟨_, fs1, _, _, h⟩ | ⟨_, fs1, fs2, _, _, h⟩
    · rw [h] at hmem
      simp only [List.nil_append] at hmem
      exact absurd hmem hno
    · rw [h] at hmem
      simp only [List.nil_append, List.mem_append, List.mem_cons, List.mem_singleton] at hmem
      rcases hmem with hmem | hmem | hmem
      · exact absurd hmem hno
      · cases hmem
      · rcases hmem with hmem | hmem
        · cases hmem
        · exact absurd hmem (List.not_mem_nil _)
    · rw [h] at hmem ⊢
      simp only [List.nil_append, List.mem_append, List.mem_cons] at hmem
      rcases hmem with hmem | hmem | hmem | hmem | hmem | hmem
      · exact absurd hmem hno
      · cases hmem
      · cases hmem
      · cases hmem
        exact ⟨_, [Event.perror (basename qto)], rfl⟩
      · cases hmem
      · exact absurd hmem (List.not_mem_nil _)
    · rw [h] at hmem ⊢
      simp only [List.nil_append, List.mem_append, List.mem_cons] at hmem
      rcases hmem with hmem | hmem | hmem | hmem | hmem
      · exact absurd hmem hno
      · cases hmem
      · cases hmem
      · cases hmem
        exact ⟨_, [], rfl⟩
      · exact absurd hmem (List.not_mem_nil _)

theorem unlink_failure_skips_link_witness :
    (lookup "/v".toList "/x/1.txt".toList "/y/2.txt".toList
        { fs := fsEx, sb := 7, trace := [] }).2.1 ≠
      (lookup "/v".toList "/x/1.txt".toList "/y/2.txt".toList
        { fs := fsEx, sb := 7, trace := [] }).2.2 ∧
    (unlink fsEx "/v".toList (basename "/y/2.txt".toList)).isNone = true ∧
    actions (loopBody "/v".toList "/x/1.txt".toList "/y/2.txt".toList
        { fs := fsEx, sb := 7, trace := [] }).trace =
      actions [] ++ [Event.unlinkCall (basename "/y/2.txt".toList) false] ∧
    (loopBody "/v".toList "/x/1.txt".toList "/y/2.txt".toList
        { fs := fsEx, sb := 7, trace := [] }).fs = fsEx :=
  ⟨by decide, by decide,
    (unlink_failure_skips_link "/v".toList "/x/1.txt".toList "/y/2.txt".toList
      { fs := fsEx, sb := 7, trace := [] } (by decide)
      (Option.isNone_iff_eq_none.mp (by decide))).2.1,
    (unlink_failure_skips_link "/v".toList "/x/1.txt".toList "/y/2.txt".toList
      { fs := fsEx, sb := 7, trace := [] } (by decide)
      (Option.isNone_iff_eq_none.mp (by decide))).2.2.1⟩

/-- C5: when the destination list is shorter than the source list, the loop runs
its body on the pairs at the indices below the length of the destination list
(those of `zip`), then writes the message naming the source entry at that index
and exits with status `EXIT_FAILURE`: the later source entries add no event. -/
theorem shorter_destination_aborts (cwd : CStr) (src dst : List CStr) (st : RunState)
    (h : dst.length < src.length) :
    reconcile cwd src dst st =
      (((List.zip src dst).foldl (fun s p => loopBody cwd p.1 p.2 s) st).emit
        [Event.shorter (src.get ⟨dst.length, h⟩)], 1) := by
  induction src generalizing dst st with
  | nil => simp at h
  | cons a src ih =>
    cases dst with
    | nil => simp [reconcile]
    | cons b dst =>
      simp only [reconcile, List.zip_cons_cons, List.foldl_cons]
      rw [ih dst _ (by simpa using h)]
      rfl

theorem shorter_destination_aborts_witness :
    (reconcile "/w".toList ["x/1.txt".toList, "x/2.txt".toList] ["y/1.txt".toList]
        { fs := fsEx, sb := 7, trace := [] }) =
      ((loopBody "/w".toList "x/1.txt".toList "y/1.txt".toList
          { fs := fsEx, sb := 7, trace := [] }).emit
        [Event.shorter "x/2.txt".toList], 1) :=
  shorter_destination_aborts "/w".toList ["x/1.txt".toList, "x/2.txt".toList]
    ["y/1.txt".toList] { fs := fsEx, sb := 7, trace := [] } (by decide)

/-- C1: the pair `/x/1.txt` (inode 10), `/y/2.txt` (inode 20), run from the working
directory `/w` that holds a `1.txt` (inode 30) and a `2.txt` (inode 40): both `stat`
calls, the `unlink` and the `link` succeed, and afterwards the two paths of the pair
still resolve to the inodes 10 and 20; what was relinked is `/w/2.txt`. -/
theorem relink_acts_on_base_names :
    (loopBody "/w".toList "/x/1.txt".toList "/y/2.txt".toList
        { fs := fsEx, sb := 7, trace := [] }).trace =
      [Event.mismatch "1.txt".toList "2.txt".toList,
       Event.statCall "/x/1.txt".toList (some 10),
       Event.statCall "/y/2.txt".toList (some 20),
       Event.report "1.txt".toList 10 20,
       Event.unlinkCall "2.txt".toList true,
       Event.sync,
       Event.linkCall "1.txt".toList "2.txt".toList true] ∧
    stat (loopBody "/w".toList "/x/1.txt".toList "/y/2.txt".toList
        { fs := fsEx, sb := 7, trace := [] }).fs "/w".toList "/x/1.txt".toList = some 10 ∧
    stat (loopBody "/w".toList "/x/1.txt".toList "/y/2.txt".toList
        { fs := fsEx, sb := 7, trace := [] }).fs "/w".toList "/y/2.txt".toList = some 20 ∧
    stat (loopBody "/w".toList "/x/1.txt".toList "/y/2.txt".toList
        { fs := fsEx, sb := 7, trace := [] }).fs "/w".toList "2.txt".toList = some 30 := by
  decide

/-- C6: from the filesystem `fsEx`, where `/y/1.txt` and `/x/9.txt` do not exist.
For the pair `/x/1.txt`, `/y/1.txt` the failed lookup of the destination leaves in
`inoto` the inode number 10 of the source, not 0: the report line shows 10 and 10
and no `unlink` is called. For the pair `/x/9.txt`, `/y/2.txt` the failed lookup of
the source leaves in `inofrom` the 7 that was in `sb.st_ino`, not 0. -/
theorem failed_lookup_keeps_stale_inode :
    (loopBody "/w".toList "/x/1.txt".toList "/y/1.txt".toList
        { fs := fsEx, sb := 7, trace := [] }).trace =
      [Event.statCall "/x/1.txt".toList (some 10),
       Event.statCall "/y/1.txt".toList none,
       Event.perror "/y/1.txt".toList,
       Event.report "1.txt".toList 10 10] ∧
    (lookup "/w".toList "/x/1.txt".toList "/y/1.txt".toList
        { fs := fsEx, sb := 7, trace := [] }).2 = (10, 10) ∧
    (lookup "/w".toList "/x/9.txt".toList "/y/2.txt".toList
        { fs := fsEx, sb := 7, trace := [] }).2 = (7, 20) ∧
    (lookup "/w".toList "/x/9.txt".toList "/y/2.txt".toList
        { fs := fsEx, sb := 7, trace := [] }).1.trace =
      [Event.mismatch "9.txt".toList "2.txt".toList,
       Event.statCall "/x/9.txt".toList none,
       Event.perror "/x/9.txt".toList,
       Event.statCall "/y/2.txt".toList (some 20),
       Event.report "9.txt".toList 7 20] := by
  decide

/-! ### Base names of paths under two roots -/

/-- Where a call of the first run fails the second run is not idle. From `fsApart`
the first run removes `/w/1.txt` and its `link` fails; the second run finds the two
inodes still apart and calls `unlink` again. -/
theorem second_run_repeats_unlink :
    actions (run "/w".toList ["/x/1.txt".toList] ["/y/1.txt".toList] fsApart 7).1.trace =
      [Event.unlinkCall "1.txt".toList true, Event.sync,
       Event.linkCall "1.txt".toList "1.txt".toList false] ∧
    stat (run "/w".toList ["/x/1.txt".toList] ["/y/1.txt".toList] fsApart 7).1.fs
      "/w".toList "1.txt".toList = none ∧
    actions (run "/w".toList ["/x/1.txt".toList] ["/y/1.txt".toList]
      (run "/w".toList ["/x/1.txt".toList] ["/y/1.txt".toList] fsApart 7).1.fs 7).1.trace =
      [Event.unlinkCall "1.txt".toList false] := by
  decide

/-! ## `mem2pathlist` -/

theorem firstPass_eq (count : Nat) (block : List Char) :
    firstPass count block =
      (count + block.count '\n', block.map (fun c => if c = '\n' then NUL else c)) := by
  induction block generalizing count with
  | nil => simp [firstPass]
  | cons c cp ih =>
    by_cases hc : c = '\n'
    · subst hc
      simp [firstPass, ih]
      omega
    · have hc2 : ¬ ('\n' = c) := fun h => hc h.symm
      simp [firstPass, ih, hc, List.count_cons, hc2]

/-- Once the first loop has run on a block without NUL, the NULs are where the
newlines were. -/
theorem count_NUL_firstPass (block : List Char) (htext : NUL ∉ block) :
    (block.map (fun c => if c = '\n' then NUL else c)).count NUL = block.count '\n' := by
  induction block with
  | nil => simp
  | cons c cp ih =>
    have hc : c ≠ NUL := fun h => htext (by simp [h])
    have hcp : NUL ∉ cp := fun h => htext (List.mem_cons_of_mem _ h)
    by_cases hn : c = '\n'
    · subst hn
      simp [ih hcp]
    · have hn2 : ¬ ('\n' = c) := fun h => hn h.symm
      have hc2 : ¬ (NUL = c) := fun h => hc h.symm
      simp [List.count_cons, hn, hn2, hc, hc2, ih hcp]

/-- Where `strlen` stops when there is a NUL in what is left of the block. -/
theorem strlen_of_mem (cp : List Char) (h : NUL ∈ cp) :
    ∃ k, strlen cp = some k ∧ k < cp.length ∧
      cp.count NUL = (cp.drop (k + 1)).count NUL + 1 := by
  induction cp with
  | nil => simp at h
  | cons c cs ih =>
    by_cases hc : c = NUL
    · subst hc
      exact ⟨0, by simp [strlen], by simp, by simp⟩
    · have hcs : NUL ∈ cs := by
        rcases List.mem_cons.1 h with h | h
        · exact absurd h.symm hc
        · exact h
      obtain ⟨k, hk, hlt, hcount⟩ := ih hcs
      have hc2 : ¬ (NUL = c) := fun h => hc h.symm
      refine ⟨k + 1, by simp [strlen, hc, hk], by simpa using hlt, ?_⟩
      simp [List.count_cons, hc, hc2, hcount]

/-- The second loop on what is left of a block that is empty or ends in a NUL:
every store is in bounds, every `strlen` stops inside the block, and `i` ends up
advanced by the number of NULs. -/
theorem secondPass_ok (fuel : Nat) (cp : List Char) (i : Nat) (plist : List (Option CStr))
    (hfuel : cp.length ≤ fuel) (hend : cp = [] ∨ cp.getLast? = some NUL)
    (hroom : i + cp.count NUL < plist.length) :
    ∃ pl, secondPass fuel cp i plist = Outcome.ok (i + cp.count NUL, pl) ∧
      pl.length = plist.length := by
  induction fuel generalizing cp i plist with
  | zero =>
    cases cp with
    | nil => exact ⟨plist, by simp [secondPass], rfl⟩
    | cons c cs => simp at hfuel
  | succ fuel ih =>
    cases cp with
    | nil => exact ⟨plist, by simp [secondPass], rfl⟩
    | cons c cs =>
      have hlast : (c :: cs).getLast? = some NUL := by
        rcases hend with h | h
        · cases h
        · exact h
      have hmem : NUL ∈ c :: cs := List.mem_of_getLast?_eq_some hlast
      obtain ⟨k, hk, hlt, hcount⟩ := strlen_of_mem (c :: cs) hmem
      have hend2 : (c :: cs).drop (k + 1) = [] ∨
          ((c :: cs).drop (k + 1)).getLast? = some NUL := by
        by_cases hle : (c :: cs).length ≤ k + 1
        · left
          exact List.drop_eq_nil_of_le hle
        · right
          rw [List.getLast?_drop, if_neg hle, hlast]
      have hfuel2 : ((c :: cs).drop (k + 1)).length ≤ fuel := by
        simp only [List.length_drop, List.length_cons] at hfuel ⊢
        omega
      have hi : i < plist.length := by omega
      simp only [secondPass, hk]
      by_cases hk0 : k = 0
      · have hroom2 : i + 1 + ((c :: cs).drop (k + 1)).count NUL < plist.length := by omega
        obtain ⟨pl, hpl, hlen⟩ := ih _ (i + 1) plist hfuel2 hend2 hroom2
        refine ⟨pl, ?_, hlen⟩
        simp only [hk0]
        rw [hk0] at hpl
        simp only [ne_eq, not_true_eq_false, if_false]
        rw [hpl]
        congr 2
        rw [hk0] at hcount
        omega
      · have hroom2 : i + 1 + ((c :: cs).drop (k + 1)).count NUL <
            (plist.set i (some ((c :: cs).take k))).length := by
          rw [List.length_set]
          omega
        obtain ⟨pl, hpl, hlen⟩ := ih _ (i + 1) _ hfuel2 hend2 hroom2
        refine ⟨pl, ?_, by rw [hlen, List.length_set]⟩
        simp only [ne_eq, hk0, not_false_eq_true, if_true, setSlot, hi]
        rw [hpl]
        congr 2
        omega

/-- The second loop never stops for want of fuel when it is given the length of
what is left of the block: each turn consumes at least one byte. -/
theorem secondPass_fuel_enough (fuel : Nat) (cp : List Char) (i : Nat)
    (plist : List (Option CStr)) (hfuel : cp.length ≤ fuel) :
    secondPass fuel cp i plist ≠ Outcome.fault Fault.fuel := by
  induction fuel generalizing cp i plist with
  | zero =>
    cases cp with
    | nil => simp [secondPass]
    | cons c cs => simp at hfuel
  | succ fuel ih =>
    cases cp with
    | nil => simp [secondPass]
    | cons c cs =>
      simp only [secondPass]
      cases hs : strlen (c :: cs) with
      | none => simp
      | some n =>
        have hlen : ((c :: cs).drop (n + 1)).length ≤ fuel := by
          simp only [List.length_drop, List.length_cons] at hfuel ⊢
          omega
        by_cases hn : n = 0
        · simp only [hn, ne_eq, not_true_eq_false, if_false]
          exact ih _ _ _ (by simpa [hn] using hlen)
        · simp only [ne_eq, hn, not_false_eq_true, if_true, setSlot]
          by_cases hi : i < plist.length
          · simp only [hi, if_true]
            exact ih _ _ _ hlen
          · simp [hi]

/-- The fault `Fault.fuel` is not a result of `mem2pathlist`: the faults it reports
are those of the code. -/
theorem mem2pathlist_fuel_enough (block : List Char) :
    mem2pathlist block ≠ Outcome.fault Fault.fuel := by
  have h := secondPass_fuel_enough (firstPass 0 block).2.length (firstPass 0 block).2 0
    (List.replicate ((firstPass 0 block).1 + 1) none) le_rfl
  have hm : mem2pathlist block =
      match secondPass (firstPass 0 block).2.length (firstPass 0 block).2 0
          (List.replicate ((firstPass 0 block).1 + 1) none) with
      | Outcome.fault f => Outcome.fault f
      | Outcome.ok (i, plist1) => setSlot plist1 i none := rfl
  rw [hm]
  generalize secondPass (firstPass 0 block).2.length (firstPass 0 block).2 0
      (List.replicate ((firstPass 0 block).1 + 1) none) = r at h
  cases r with
  | fault f => simpa using h
  | ok r =>
    obtain ⟨i, plist1⟩ := r
    simp only [setSlot]
    split <;> simp

/-- C10: for a block of text (no NUL byte) that is empty or ends in a newline,
`mem2pathlist` returns: no store of the second loop and not the final store of the
terminator falls outside the slots allocated (the number of newlines plus one), and
no `strlen` runs past the end of the block. The second loop ends with `i` at the
number of newlines, where the terminator is stored. -/
theorem mem2pathlist_in_bounds (block : List Char) (htext : NUL ∉ block)
    (hend : block = [] ∨ block.getLast? = some '\n') :
    ∃ plist1 plist,
      secondPass (firstPass 0 block).2.length (firstPass 0 block).2 0
          (List.replicate ((firstPass 0 block).1 + 1) none) =
        Outcome.ok (block.count '\n', plist1) ∧
      plist1.length = block.count '\n' + 1 ∧
      mem2pathlist block = Outcome.ok plist ∧
      plist = plist1.set (block.count '\n') none ∧
      plist.length = block.count '\n' + 1 := by
  have hend2 : (block.map (fun c => if c = '\n' then NUL else c)) = [] ∨
      (block.map (fun c => if c = '\n' then NUL else c)).getLast? = some NUL := by
    rcases hend with h | h
    · left
      simp [h]
    · right
      simp [List.getLast?_map, h]
  have hcount := count_NUL_firstPass block htext
  obtain ⟨pl, hpl, hlen⟩ := secondPass_ok
    (block.map (fun c => if c = '\n' then NUL else c)).length
    (block.map (fun c => if c = '\n' then NUL else c)) 0
    (List.replicate (block.count '\n' + 1) none) le_rfl hend2
    (by rw [hcount]; simp)
  rw [hcount, Nat.zero_add] at hpl
  rw [List.length_replicate] at hlen
  refine ⟨pl, pl.set (block.count '\n') none, ?_, hlen, ?_, rfl, by rw [List.length_set, hlen]⟩
  · rw [firstPass_eq]
    simpa using hpl
  · unfold mem2pathlist
    rw [firstPass_eq]
    simp only [Nat.zero_add]
    rw [hpl]
    simp [setSlot, hlen]

theorem mem2pathlist_in_bounds_witness :
    ∃ plist1 plist,
      secondPass (firstPass 0 "a\nb\n\nc\n".toList).2.length
          (firstPass 0 "a\nb\n\nc\n".toList).2 0
          (List.replicate ((firstPass 0 "a\nb\n\nc\n".toList).1 + 1) none) =
        Outcome.ok ("a\nb\n\nc\n".toList.count '\n', plist1) ∧
      plist1.length = "a\nb\n\nc\n".toList.count '\n' + 1 ∧
      mem2pathlist "a\nb\n\nc\n".toList = Outcome.ok plist ∧
      plist = plist1.set ("a\nb\n\nc\n".toList.count '\n') none ∧
      plist.length = "a\nb\n\nc\n".toList.count '\n' + 1 :=
  mem2pathlist_in_bounds "a\nb\n\nc\n".toList (by decide) (Or.inr (by decide))

theorem strlen_line (l rest : List Char) (hl : NUL ∉ l) :
    strlen (l ++ NUL :: rest) = some l.length := by
  induction l with
  | nil => simp [strlen]
  | cons c l ih =>
    have hc : c ≠ NUL := fun h => hl (by simp [h])
    have hl2 : NUL ∉ l := fun h => hl (List.mem_cons_of_mem _ h)
    simp [strlen, hc, ih hl2]

theorem firstPass_textOf (ls : List CStr) (hls : ∀ l ∈ ls, '\n' ∉ l) :
    (textOf ls).map (fun c => if c = '\n' then NUL else c) =
      ls.flatMap (fun l => l ++ [NUL]) := by
  induction ls with
  | nil => simp [textOf]
  | cons l ls ih =>
    have h1 : l.map (fun c => if c = '\n' then NUL else c) = l := by
      have hl := hls l (List.mem_cons_self _ _)
      conv_rhs => rw [← List.map_id l]
      apply List.map_congr_left
      intro c hc
      have : c ≠ '\n' := fun h => hl (h ▸ hc)
      simp [this]
    have ih2 := ih (fun l1 h => hls l1 (List.mem_cons_of_mem _ h))
    simp only [textOf] at ih2 ⊢
    simp only [List.flatMap_cons, List.map_append, ih2, h1]
    simp

theorem count_newline_textOf (ls : List CStr) (hls : ∀ l ∈ ls, '\n' ∉ l) :
    (textOf ls).count '\n' = ls.length := by
  induction ls with
  | nil => simp [textOf]
  | cons l ls ih =>
    have hl := hls l (List.mem_cons_self _ _)
    have ih2 := ih (fun l1 h => hls l1 (List.mem_cons_of_mem _ h))
    simp only [textOf] at ih2 ⊢
    simp only [List.flatMap_cons, List.count_append, ih2, List.count_eq_zero_of_not_mem hl]
    simp
    omega

/-- The second loop on the lines `ls`, each ended by a NUL, from slot `i`: one slot
per line, left at NULL for an empty line. -/
theorem secondPass_lines (ls : List CStr) (hls : ∀ l ∈ ls, NUL ∉ l) (fuel : Nat)
    (before : List (Option CStr)) (k : Nat)
    (hfuel : (ls.flatMap (fun l => l ++ [NUL])).length ≤ fuel) (hk : ls.length ≤ k) :
    secondPass fuel (ls.flatMap (fun l => l ++ [NUL])) before.length
        (before ++ List.replicate k none) =
      Outcome.ok (before.length + ls.length,
        before ++ ls.map slotOf ++ List.replicate (k - ls.length) none) := by
  induction ls generalizing fuel before k with
  | nil => cases fuel <;> simp [secondPass]
  | cons l ls ih =>
    have hl := hls l (List.mem_cons_self _ _)
    have hls2 : ∀ l1 ∈ ls, NUL ∉ l1 := fun l1 h => hls l1 (List.mem_cons_of_mem _ h)
    obtain ⟨k1, rfl⟩ : ∃ k1, k = k1 + 1 := ⟨k - 1, by simp at hk; omega⟩
    have hcp : (l :: ls).flatMap (fun l => l ++ [NUL]) =
        l ++ NUL :: ls.flatMap (fun l => l ++ [NUL]) := by simp
    rw [hcp] at hfuel ⊢
    cases fuel with
    | zero => simp at hfuel
    | succ fuel =>
      have hfuel2 : (ls.flatMap (fun l => l ++ [NUL])).length ≤ fuel := by
        simp only [List.length_append, List.length_cons] at hfuel
        omega
      have hk2 : ls.length ≤ k1 := by simpa using hk
      have hstr := strlen_line l (ls.flatMap (fun l => l ++ [NUL])) hl
      have hdrop : (l ++ NUL :: ls.flatMap (fun l => l ++ [NUL])).drop (l.length + 1) =
          ls.flatMap (fun l => l ++ [NUL]) := by
        rw [← List.drop_drop, List.drop_left]
        rfl
      have htake : (l ++ NUL :: ls.flatMap (fun l => l ++ [NUL])).take l.length = l := by
        rw [List.take_left]
      have hstep := ih hls2 fuel (before ++ [slotOf l]) k1 hfuel2 hk2
      simp only [List.length_append, List.length_singleton] at hstep
      cases hcons : l ++ NUL :: ls.flatMap (fun l => l ++ [NUL]) with
      | nil => simp at hcons
      | cons c cs =>
        rw [hcons] at hstr hdrop htake
        simp only [secondPass, hstr, hdrop, htake]
        by_cases hl0 : l = []
        · have hlen0 : l.length = 0 := by simp [hl0]
          simp only [hlen0, ne_eq, not_true_eq_false, if_false]
          have hslot : slotOf l = none := by simp [slotOf, hl0]
          rw [hslot] at hstep
          have e1 : before ++ List.replicate (k1 + 1) none =
              before ++ [none] ++ List.replicate k1 (none : Option CStr) := by
            simp [List.replicate_succ]
          rw [e1, hstep]
          simp [hslot, Nat.add_assoc, Nat.add_comm 1]
        · have hlen0 : l.length ≠ 0 := by simpa using hl0
          simp only [ne_eq, hlen0, not_false_eq_true, if_true, setSlot]
          have hslot : slotOf l = some l := by simp [slotOf, hl0]
          rw [hslot] at hstep
          have hlt : before.length < (before ++ List.replicate (k1 + 1) none).length := by
            simp
          simp only [hlt, if_true]
          have e1 : (before ++ List.replicate (k1 + 1) none).set before.length (some l) =
              before ++ [some l] ++ List.replicate k1 (none : Option CStr) := by
            simp [List.replicate_succ, List.set_append_right]
          rw [e1, hstep]
          simp [hslot, Nat.add_assoc, Nat.add_comm 1]

/-- On a block of text made of lines each followed by a newline, `mem2pathlist`
returns one slot per line, NULL for an empty line, and the terminator; so the list
read up to the first NULL is the lines before the first empty one. -/
theorem mem2pathlist_lines (ls : List CStr) (hls : ∀ l ∈ ls, '\n' ∉ l ∧ NUL ∉ l) :
    mem2pathlist (textOf ls) = Outcome.ok (ls.map slotOf ++ [none]) ∧
    pathList (textOf ls) = Outcome.ok (ls.takeWhile (fun l => l != [])) := by
  have hnl : ∀ l ∈ ls, '\n' ∉ l := fun l h => (hls l h).1
  have hnul : ∀ l ∈ ls, NUL ∉ l := fun l h => (hls l h).2
  have hm : mem2pathlist (textOf ls) = Outcome.ok (ls.map slotOf ++ [none]) := by
    unfold mem2pathlist
    rw [firstPass_eq, firstPass_textOf ls hnl, count_newline_textOf ls hnl]
    have h := secondPass_lines ls hnul (ls.flatMap (fun l => l ++ [NUL])).length []
      (ls.length + 1) le_rfl (Nat.le_succ _)
    simp only [List.length_nil, Nat.zero_add, List.nil_append] at h
    simp only [Nat.zero_add]
    rw [h]
    simp [setSlot, List.replicate_succ, List.set_append_right]
  refine ⟨hm, ?_⟩
  unfold pathList
  rw [hm]
  simp only [Outcome.ok.injEq]
  clear hm hls hnl hnul
  induction ls with
  | nil => simp [entries]
  | cons l ls ih =>
    by_cases hl : l = []
    · simp [hl, slotOf, entries]
    · simp [hl, slotOf, entries, ih]

/-- Blocks outside the precondition of `mem2pathlist_in_bounds`: without a final
newline the last `strlen` finds no NUL in the block; with a NUL byte in the block
the terminator is stored at the index that equals the number of slots. -/
theorem mem2pathlist_faults :
    mem2pathlist "a\nb".toList = Outcome.fault Fault.overrun ∧
    mem2pathlist [NUL, '\n'] = Outcome.fault Fault.outOfBounds ∧
    mem2pathlist ['a', '\n', 'b', '\n', NUL] = Outcome.fault Fault.outOfBounds := by
  decide

/-- C4: on the block `"a\nb\n\nc\n"` the array `mem2pathlist` returns has a NULL in
the slot of the empty line, so the list read up to the first NULL is `a`, `b`: the
line `c` is not in it. -/
theorem empty_line_cuts_path_list :
    mem2pathlist "a\nb\n\nc\n".toList =
      Outcome.ok [some "a".toList, some "b".toList, none, some "c".toList, none] ∧
    pathList "a\nb\n\nc\n".toList = Outcome.ok ["a".toList, "b".toList] ∧
    pathList "a\nb\n\nc\n".toList ≠ Outcome.ok ["a".toList, "b".toList, "c".toList] := by
  decide

/-! ## `recursedir` -/

theorem writtenPaths_append (a b : List DirEvent) :
    writtenPaths (a ++ b) = writtenPaths a ++ writtenPaths b := by
  induction a with
  | nil => rfl
  | cons e a ih => cases e <;> simp [writtenPaths, ih]

theorem startsWith_iff (hay needle : CStr) :
    startsWith hay needle = true ↔ ∃ t, hay = needle ++ t := by
  induction needle generalizing hay with
  | nil => simp [startsWith]
  | cons n needle ih =>
    cases hay with
    | nil => simp [startsWith]
    | cons h hay =>
      simp only [startsWith, Bool.and_eq_true, beq_iff_eq, ih, List.cons_append, List.cons.injEq]
      constructor
      · rintro ⟨rfl, t, rfl⟩
        exact ⟨t, rfl, rfl⟩
      · rintro ⟨t, rfl, rfl⟩
        exact ⟨rfl, t, rfl⟩

theorem strstr_iff (hay needle : CStr) : strstr hay needle = true ↔ Contains hay needle := by
  induction hay with
  | nil =>
    simp only [strstr, startsWith_iff, Contains]
    constructor
    · rintro ⟨t, h⟩
      exact ⟨[], t, by simpa using h⟩
    · rintro ⟨s, t, h⟩
      have h1 : s ++ (needle ++ t) = [] := by rw [← List.append_assoc]; exact h.symm
      have h2 := List.append_eq_nil.1 h1
      exact ⟨t, h2.2.symm⟩
  | cons c hay ih =>
    simp only [strstr, Bool.or_eq_true, startsWith_iff, ih, Contains]
    constructor
    · rintro (⟨t, h⟩ | ⟨s, t, h⟩)
      · exact ⟨[], t, by simpa using h⟩
      · exact ⟨c :: s, t, by simp [h]⟩
    · rintro ⟨s, t, h⟩
      cases s with
      | nil => exact Or.inl ⟨t, by simpa using h⟩
      | cons d s =>
        right
        simp only [List.cons_append, List.cons.injEq] at h
        exact ⟨s, t, h.2⟩

theorem excluded_iff (newpath : CStr) (vl : List CStr) :
    excluded newpath vl = true ↔ ∃ v ∈ vl, Contains newpath v := by
  induction vl with
  | nil => simp [excluded]
  | cons v vl ih =>
    simp only [excluded, List.mem_cons, exists_eq_or_imp]
    by_cases h : strstr newpath v = true
    · simp [h, (strstr_iff _ _).1 h]
    · have hc : ¬ Contains newpath v := fun hc => h ((strstr_iff _ _).2 hc)
      simp [h, hc, ih]

/-- What `keep` decides, in words of the tree. -/
theorem keep_iff (vlist : Option (List CStr)) (p : CStr) (t : DType) :
    keep vlist (p, t) = true ↔
      (t = DType.DT_REG ∨ t = DType.DT_LNK) ∧ ∀ v ∈ vlist.getD [], ¬ Contains p v := by
  unfold keep
  cases vlist with
  | none => simp
  | some vl =>
    simp only [Bool.and_eq_true, Bool.or_eq_true, decide_eq_true_eq, Bool.not_eq_true',
      Option.getD_some]
    rw [← Bool.not_eq_true, excluded_iff]
    simp

theorem walk_eq_flatMap (tree : List Dirent) (root : CStr) :
    walk tree root = tree.flatMap (fun e => walkEntry e root) := by
  induction tree with
  | nil => simp [walk]
  | cons e rest ih => simp [walk, ih]

theorem walkEntry_eq (e : Dirent) (root : CStr) :
    walkEntry e root =
      if e.isDot then []
      else (root ++ '/' :: e.d_name, e.d_type) ::
        (if e.d_type = DType.DT_DIR then walk e.sub (root ++ '/' :: e.d_name) else []) := by
  cases e with
  | mk n t ok sub => simp [walkEntry, Dirent.isDot, Dirent.d_name, Dirent.d_type, Dirent.sub]

/-- The list `walk` holds the entries `Reach` relates to the root. -/
theorem reach_of_mem_walk : ∀ (tree : List Dirent) (root : CStr) (p : CStr) (t : DType),
    (p, t) ∈ walk tree root → Reach root tree p t
  | [], root, p, t, h => by simp [walk] at h
  | Dirent.mk n ty ok sub :: rest, root, p, t, h => by
    rw [walk, List.mem_append] at h
    rcases h with h | h
    · rw [walkEntry_eq] at h
      by_cases hd : (Dirent.mk n ty ok sub).isDot = true
      · simp [hd] at h
      · have hd2 : (Dirent.mk n ty ok sub).isDot = false := by simpa using hd
        simp only [hd2, Bool.false_eq_true, if_false, List.mem_cons, Prod.mk.injEq] at h
        rcases h with ⟨hp, ht⟩ | h
        · rw [hp, ht]
          exact Reach.here root _ (Dirent.mk n ty ok sub) (List.mem_cons_self _ _) hd2
        · by_cases hdir : (Dirent.mk n ty ok sub).d_type = DType.DT_DIR
          · simp only [hdir, if_true] at h
            have ih := reach_of_mem_walk sub (root ++ '/' :: n) p t h
            exact Reach.deeper root _ (Dirent.mk n ty ok sub) p t (List.mem_cons_self _ _)
              hd2 hdir ih
          · simp [hdir] at h
    · have ih := reach_of_mem_walk rest root p t h
      cases ih with
      | here _ _ e he hd => exact Reach.here root _ e (List.mem_cons_of_mem _ he) hd
      | deeper _ _ e _ _ he hd hdir hr =>
        exact Reach.deeper root _ e p t (List.mem_cons_of_mem _ he) hd hdir hr

theorem mem_walk_of_reach (tree : List Dirent) (root : CStr) (p : CStr) (t : DType)
    (h : Reach root tree p t) : (p, t) ∈ walk tree root := by
  induction h with
  | here root entries e he hd =>
    rw [walk_eq_flatMap, List.mem_flatMap]
    refine ⟨e, he, ?_⟩
    rw [walkEntry_eq]
    simp [hd]
  | deeper root entries e p t he hd hdir _ ih =>
    rw [walk_eq_flatMap, List.mem_flatMap]
    refine ⟨e, he, ?_⟩
    rw [walkEntry_eq]
    simp [hd, hdir, ih]

theorem wellFormed_cons (e : Dirent) (rest : List Dirent) :
    wellFormed (e :: rest) = true ↔
      e.statOk = true ∧ '/' ∉ e.d_name ∧ wellFormed e.sub = true ∧
        (∀ e1 ∈ rest, e1.d_name ≠ e.d_name) ∧ wellFormed rest = true := by
  cases e with
  | mk n t ok sub =>
    simp only [wellFormed, wellFormedEntry, Dirent.statOk, Dirent.d_name, Dirent.sub,
      Bool.and_eq_true, List.all_eq_true, bne_iff_ne, Bool.not_eq_true', ne_eq]
    constructor
    · rintro ⟨⟨⟨⟨h1, h2⟩, h3⟩, h4⟩, h5⟩
      refine ⟨h1, ?_, h3, h4, h5⟩
      intro hm
      have : n.contains '/' = true := by simpa using hm
      rw [this] at h2
      cases h2
    · rintro ⟨h1, h2, h3, h4, h5⟩
      refine ⟨⟨⟨⟨h1, ?_⟩, h3⟩, h4⟩, h5⟩
      cases hc : n.contains '/'
      · rfl
      · exact absurd (by simpa using hc) h2

theorem regLnkCommon_written (vlist : Option (List CStr)) (p : CStr) (t : DType)
    (ht : t = DType.DT_REG ∨ t = DType.DT_LNK) :
    writtenPaths (regLnkCommon p vlist) = ([(p, t)].filter (keep vlist)).map Prod.fst := by
  have hk : keep vlist (p, t) =
      (match vlist with
       | none => true
       | some vl => !excluded p vl) := by
    unfold keep
    rcases ht with rfl | rfl <;> simp
  unfold regLnkCommon
  simp only [List.filter_cons, List.filter_nil, hk]
  split <;> simp [writtenPaths]

/-- On a tree where every `stat` succeeds, the lines `recursedir` writes are the
paths of the reachable entries that `keep` retains, in the order of the walk. -/
theorem written_eq_walk (vlist : Option (List CStr)) :
    ∀ (tree : List Dirent) (root : CStr), wellFormed tree = true →
      writtenPaths (recursedirOn vlist tree root) =
        ((walk tree root).filter (keep vlist)).map Prod.fst
  | [], root, _ => by simp [recursedirOn, walk, writtenPaths]
  | Dirent.mk n t ok sub :: rest, root, h => by
    obtain ⟨h1, _, h3, _, h5⟩ := (wellFormed_cons _ _).1 h
    simp only [Dirent.statOk, Dirent.sub] at h1 h3
    have ihs := written_eq_walk vlist sub (root ++ '/' :: n) h3
    have ihr := written_eq_walk vlist rest root h5
    rw [recursedirOn, walk, writtenPaths_append, List.filter_append, List.map_append, ihr]
    congr 1
    unfold visit walkEntry
    by_cases hdd : n = ['.', '.']
    · simp [hdd, writtenPaths]
    · by_cases hd : n = ['.']
      · simp [hd, writtenPaths]
      · simp only [hdd, hd, if_false, Bool.or_self, Bool.false_eq_true, decide_False]
        cases t with
        | DT_BLK => simp [writtenPaths, keep]
        | DT_CHR => simp [writtenPaths, keep]
        | DT_FIFO => simp [writtenPaths, keep]
        | DT_SOCK => simp [writtenPaths, keep]
        | DT_LNK =>
          simp only [h1, if_true]
          rw [regLnkCommon_written vlist _ DType.DT_LNK (Or.inr rfl)]
          simp
        | DT_REG =>
          simp only [h1, if_true]
          rw [regLnkCommon_written vlist _ DType.DT_REG (Or.inl rfl)]
          simp
        | DT_DIR =>
          simp only [if_true, ihs]
          simp [keep]
        | DT_UNKNOWN => simp [writtenPaths, keep]

theorem slash_split (a b m m1 : CStr) (ha : '/' ∉ a) (hb : '/' ∉ b)
    (hm : m = [] ∨ ∃ x, m = '/' :: x) (hm1 : m1 = [] ∨ ∃ x, m1 = '/' :: x)
    (h : a ++ m = b ++ m1) : a = b := by
  induction a generalizing b with
  | nil =>
    cases b with
    | nil => rfl
    | cons c b =>
      exfalso
      rcases hm with rfl | ⟨x, rfl⟩
      · simp at h
      · simp only [List.nil_append, List.cons_append, List.cons.injEq] at h
        exact hb (by simp [← h.1])
  | cons c a ih =>
    cases b with
    | nil =>
      exfalso
      rcases hm1 with rfl | ⟨x, rfl⟩
      · simp at h
      · simp only [List.nil_append, List.cons_append, List.cons.injEq] at h
        exact ha (by simp [h.1])
    | cons d b =>
      simp only [List.cons_append, List.cons.injEq] at h
      have ha2 : '/' ∉ a := fun hx => ha (List.mem_cons_of_mem _ hx)
      have hb2 : '/' ∉ b := fun hx => hb (List.mem_cons_of_mem _ hx)
      rw [h.1, ih b ha2 hb2 h.2]

theorem wellFormed_mem (tree : List Dirent) (h : wellFormed tree = true) :
    ∀ e ∈ tree, '/' ∉ e.d_name := by
  induction tree with
  | nil => simp
  | cons e rest ih =>
    obtain ⟨_, h2, _, _, h5⟩ := (wellFormed_cons _ _).1 h
    intro e1 he1
    rcases List.mem_cons.1 he1 with rfl | he1
    · exact h2
    · exact ih h5 e1 he1

/-- The path of a reachable entry: the root, the name of an entry of the root, and
either nothing more or a slash and more. -/
theorem walk_path_shape : ∀ (tree : List Dirent) (root : CStr) (x : CStr × DType),
    x ∈ walk tree root →
      ∃ e ∈ tree, ∃ more, x.1 = root ++ '/' :: (e.d_name ++ more) ∧
        (more = [] ∨ ∃ m, more = '/' :: m)
  | [], root, x, h => by simp [walk] at h
  | Dirent.mk n t ok sub :: rest, root, x, h => by
    rw [walk, List.mem_append] at h
    rcases h with h | h
    · refine ⟨Dirent.mk n t ok sub, List.mem_cons_self _ _, ?_⟩
      rw [walkEntry_eq] at h
      by_cases hd : (Dirent.mk n t ok sub).isDot = true
      · simp [hd] at h
      · have hd2 : (Dirent.mk n t ok sub).isDot = false := by simpa using hd
        simp only [hd2, Bool.false_eq_true, if_false, List.mem_cons, Dirent.d_name,
          Dirent.d_type, Dirent.sub] at h
        rcases h with hx | h
        · exact ⟨[], by simp [Dirent.d_name, hx], Or.inl rfl⟩
        · by_cases hdir : t = DType.DT_DIR
          · simp only [hdir, if_true] at h
            obtain ⟨e1, _, more1, hx, _⟩ := walk_path_shape sub (root ++ '/' :: n) x h
            refine ⟨'/' :: (e1.d_name ++ more1), ?_, Or.inr ⟨_, rfl⟩⟩
            rw [hx]
            simp [Dirent.d_name]
          · simp [hdir] at h
    · obtain ⟨e1, he1, more1, hx, hm⟩ := walk_path_shape rest root x h
      exact ⟨e1, List.mem_cons_of_mem _ he1, more1, hx, hm⟩

/-- On a well-formed tree no two reachable entries have the same path. -/
theorem walk_nodup : ∀ (tree : List Dirent) (root : CStr), wellFormed tree = true →
    ((walk tree root).map Prod.fst).Nodup
  | [], root, _ => by simp [walk]
  | Dirent.mk n t ok sub :: rest, root, h => by
    obtain ⟨_, h2, h3, h4, h5⟩ := (wellFormed_cons _ _).1 h
    simp only [Dirent.d_name, Dirent.sub] at h2 h3 h4
    have ihs := walk_nodup sub (root ++ '/' :: n) h3
    have ihr := walk_nodup rest root h5
    rw [walk, List.map_append, List.nodup_append]
    refine ⟨?_, ihr, ?_⟩
    · rw [walkEntry_eq]
      by_cases hd : (Dirent.mk n t ok sub).isDot = true
      · simp [hd]
      · have hd2 : (Dirent.mk n t ok sub).isDot = false := by simpa using hd
        simp only [hd2, Bool.false_eq_true, if_false, Dirent.d_name, Dirent.d_type,
          Dirent.sub, List.map_cons, List.nodup_cons]
        by_cases hdir : t = DType.DT_DIR
        · simp only [hdir, if_true]
          refine ⟨?_, ihs⟩
          intro hmem
          obtain ⟨x, hx, hx1⟩ := List.mem_map.1 hmem
          obtain ⟨e1, _, more1, hshape, _⟩ := walk_path_shape sub (root ++ '/' :: n) x hx
          rw [hx1] at hshape
          have hlen := congrArg List.length hshape
          simp at hlen
        · simp [hdir]
    · intro p hpA hpB
      obtain ⟨x, hx, hx1⟩ := List.mem_map.1 hpA
      obtain ⟨y, hy, hy1⟩ := List.mem_map.1 hpB
      have hxw : x ∈ walk [Dirent.mk n t ok sub] root := by simpa [walk] using hx
      obtain ⟨e0, he0, more0, hs0, hm0⟩ := walk_path_shape _ root x hxw
      obtain ⟨e1, he1, more1, hs1, hm1⟩ := walk_path_shape rest root y hy
      have he0eq : e0 = Dirent.mk n t ok sub := by simpa using he0
      subst he0eq
      rw [hx1] at hs0
      rw [hy1, hs0] at hs1
      have heq : n ++ more0 = e1.d_name ++ more1 := by
        simpa [Dirent.d_name] using hs1
      have hname := slash_split n e1.d_name more0 more1 h2
        (wellFormed_mem rest h5 e1 he1) hm0 hm1 heq
      exact h4 e1 he1 hname.symm

theorem writtenPaths_eq_filterMap (es : List DirEvent) :
    writtenPaths es = es.filterMap (fun e =>
      match e with
      | DirEvent.written p => some p
      | _ => none) := by
  induction es with
  | nil => rfl
  | cons e es ih => cases e <;> simp [writtenPaths, ih]

/-- The events of two models of one tree that differ in the order of the entries
are the same up to order. -/
theorem recursedirOn_shuffled (vlist : Option (List CStr)) (l l1 : List Dirent)
    (h : Shuffled l l1) :
    ∀ root, (recursedirOn vlist l root).Perm (recursedirOn vlist l1 root) := by
  induction h with
  | refl l => exact fun _ => List.Perm.refl _
  | cons n t ok sub sub1 l l1 _ _ ihs ihl =>
    intro root
    rw [recursedirOn, recursedirOn]
    refine List.Perm.append ?_ (ihl root)
    unfold visit
    by_cases hdd : n = ['.', '.']
    · simp [hdd]
    · by_cases hd : n = ['.']
      · simp [hd]
      · simp only [hdd, hd, if_false]
        cases t with
        | DT_DIR => exact ihs _
        | _ => exact List.Perm.refl _
  | swap a b l =>
    intro root
    simp only [recursedirOn]
    rw [← List.append_assoc, ← List.append_assoc]
    exact List.Perm.append_right _ List.perm_append_comm
  | trans l1 l2 l3 _ _ ih1 ih2 => exact fun root => (ih1 root).trans (ih2 root)

/-- C7: on a model of a directory tree on which every `stat` succeeds, with names
free of slashes and distinct within a directory, `recursedir` writes a path exactly
when it is the path of a regular file or symlink reached through directories from
the root and none of the strings of `vlist` is a substring of it; it writes no path
twice; the path of an entry of another type (a directory, a special file) is not
written; and for every other order of the entries of the directories the paths
written are the same up to order. For a root with a regular file `f`, a directory
`d` with a regular file `g` and a FIFO `p`, the paths written are those of `f` and
`g`. -/
theorem recursedir_collects (root : CStr) (tree : List Dirent) (vlist : Option (List CStr))
    (hwf : wellFormed tree = true) :
    (∀ p, p ∈ writtenPaths (recursedir root tree vlist) ↔
      ∃ t, Reach root tree p t ∧ (t = DType.DT_REG ∨ t = DType.DT_LNK) ∧
        ∀ v ∈ vlist.getD [], ¬ Contains p v) ∧
    (writtenPaths (recursedir root tree vlist)).Nodup ∧
    (∀ p t, Reach root tree p t → p ∈ writtenPaths (recursedir root tree vlist) →
      t = DType.DT_REG ∨ t = DType.DT_LNK) ∧
    (∀ tree1, Shuffled tree tree1 →
      (writtenPaths (recursedir root tree vlist)).Perm
        (writtenPaths (recursedir root tree1 vlist))) ∧
    writtenPaths (recursedir "/r".toList treeEx none) = ["/r/f".toList, "/r/d/g".toList] := by
  have hw := written_eq_walk vlist tree root hwf
  have hnd := walk_nodup tree root hwf
  have hmem : ∀ p, p ∈ writtenPaths (recursedir root tree vlist) ↔
      ∃ t, Reach root tree p t ∧ (t = DType.DT_REG ∨ t = DType.DT_LNK) ∧
        ∀ v ∈ vlist.getD [], ¬ Contains p v := by
    intro p
    unfold recursedir
    rw [hw, List.mem_map]
    constructor
    · rintro ⟨⟨q, t⟩, hx, rfl⟩
      rw [List.mem_filter] at hx
      exact ⟨t, reach_of_mem_walk _ _ _ _ hx.1, (keep_iff vlist q t).1 hx.2⟩
    · rintro ⟨t, hr, hk⟩
      exact ⟨(p, t), List.mem_filter.2 ⟨mem_walk_of_reach _ _ _ _ hr,
        (keep_iff vlist p t).2 hk⟩, rfl⟩
  refine ⟨hmem, ?_, ?_, ?_, by decide⟩
  · unfold recursedir
    rw [hw]
    exact List.Nodup.sublist ((List.filter_sublist _).map Prod.fst) hnd
  · intro p t hr hp
    obtain ⟨t1, hr1, ht1, _⟩ := (hmem p).1 hp
    have h1 := mem_walk_of_reach _ _ _ _ hr
    have h2 := mem_walk_of_reach _ _ _ _ hr1
    have heq : (p, t) = (p, t1) := List.inj_on_of_nodup_map hnd h1 h2 rfl
    have : t = t1 := (Prod.mk.injEq _ _ _ _ ▸ heq).2
    rw [this]
    exact ht1
  · intro tree1 hs
    unfold recursedir
    rw [writtenPaths_eq_filterMap, writtenPaths_eq_filterMap]
    exact List.Perm.filterMap _ (recursedirOn_shuffled vlist tree tree1 hs root)

theorem recursedir_collects_witness :
    wellFormed treeEx = true ∧
    (writtenPaths (recursedir "/r".toList treeEx (some ["d/".toList]))).Nodup ∧
    (∀ p, p ∈ writtenPaths (recursedir "/r".toList treeEx (some ["d/".toList])) ↔
      ∃ t, Reach "/r".toList treeEx p t ∧ (t = DType.DT_REG ∨ t = DType.DT_LNK) ∧
        ∀ v ∈ (some ["d/".toList]).getD [], ¬ Contains p v) :=
  ⟨by decide,
    (recursedir_collects "/r".toList treeEx (some ["d/".toList]) (by decide)).2.1,
    (recursedir_collects "/r".toList treeEx (some ["d/".toList]) (by decide)).1⟩

end Hlink
